import Mathlib

/-
Shallow embedding of the name-matching and risk-scoring core of
`src/app.py` (csanchess/AFCS).

Strings are modelled as `List Char`.  Python's `str.lower` is modelled by
the ASCII case map `pyLower` (the repository's constants and the claims
only involve ASCII).  Python's `str.split()` (split on runs of whitespace,
dropping leading/trailing whitespace) is `splitWs`; `" ".join` is `joinSp`.

`rapidfuzz.fuzz.token_sort_ratio` is the normalized indel similarity of the
two strings after each is rebuilt as its whitespace-separated tokens in
sorted order: `100 * (1 - dist/(|a|+|b|))` where `dist` is the indel
distance `|a| + |b| - 2 * lcs a b`.  That similarity, a real number in
rapidfuzz (a C double), is modelled exactly as a rational
`200 * lcs a b / (|a| + |b|)` (`100` when both strings are empty, as
rapidfuzz returns `100.0` there).  `lcs` is longest-common-subsequence
length, written with an explicit fuel argument (the fuel `|a| + |b|` always
suffices) so that it is structurally recursive and kernel-evaluable.

Python's `sorted(matches, key=lambda x: x[1], reverse=True)` is a stable
descending sort by score; it is modelled by `List.insertionSort` with the
relation `scoreGe x y := y.2 ≤ x.2`, which places an element before the
first strictly-smaller-scored one and after equal-scored ones — exactly the
stable descending order `sorted(..., reverse=True)` produces.
-/

namespace AFCS

/-- Whitespace for Python's `str.split()` (ASCII fragment: space, tab,
newline, carriage return, vertical tab, form feed). -/
def isWs (c : Char) : Bool :=
  c.toNat = 32 || c.toNat = 9 || c.toNat = 10 || c.toNat = 13 ||
    c.toNat = 11 || c.toNat = 12

/-- ASCII case map modelling Python's `str.lower` on the character level. -/
def pyLower (c : Char) : Char :=
  if 65 ≤ c.toNat ∧ c.toNat ≤ 90 then Char.ofNat (c.toNat + 32) else c

/-- Worker for `splitWs`: `acc` holds the current word, reversed. -/
def splitWsAux : List Char → List Char → List (List Char)
  | [], acc => if acc.isEmpty then [] else [acc.reverse]
  | c :: cs, acc =>
      if isWs c then
        if acc.isEmpty then splitWsAux cs [] else acc.reverse :: splitWsAux cs []
      else splitWsAux cs (c :: acc)

/-- Python `str.split()`: maximal whitespace-free runs, in order; leading,
trailing and repeated whitespace produce no empty words. -/
def splitWs (s : List Char) : List (List Char) := splitWsAux s []

/-- Python `" ".join(words)`. -/
def joinSp : List (List Char) → List Char
  | [] => []
  | [w] => w
  | w :: ws => w ++ ' ' :: joinSp ws

/-- `normalize` of `src/app.py` line 34: `" ".join(text.lower().split())`. -/
def normalize (s : List Char) : List Char :=
  joinSp (splitWs (s.map pyLower))

/-- Longest-common-subsequence length with explicit fuel; any fuel at least
`as.length + bs.length` gives the true value (`lcsF_fuel`). -/
def lcsF : Nat → List Char → List Char → Nat
  | 0, _, _ => 0
  | _ + 1, [], _ => 0
  | _ + 1, _ :: _, [] => 0
  | f + 1, a :: as, b :: bs =>
      if a = b then lcsF f as bs + 1
      else max (lcsF f (a :: as) bs) (lcsF f as (b :: bs))

/-- Longest-common-subsequence length of two character lists. -/
def lcs (as bs : List Char) : Nat := lcsF (as.length + bs.length) as bs

/-- Normalized indel similarity on 0–100, the mathematical value computed by
`rapidfuzz.fuzz.ratio`, as an exact rational: `200 * lcs / (|a| + |b|)`,
and `100` when both inputs are empty. -/
def indelScore (a b : List Char) : ℚ :=
  if a.length + b.length = 0 then 100
  else 200 * (lcs a b : ℚ) / ((a.length : ℚ) + (b.length : ℚ))

/-- Python `sorted` on strings: lexicographic comparison by code point. -/
def lexLe : List Char → List Char → Bool
  | [], _ => true
  | _ :: _, [] => false
  | a :: as, b :: bs => if a < b then true else if b < a then false else lexLe as bs

/-- Sort a token list ascending, as Python `sorted(s.split())`. -/
def sortTokens (ts : List (List Char)) : List (List Char) :=
  List.insertionSort (fun x y => lexLe x y = true) ts

/-- `rapidfuzz.fuzz.token_sort_ratio`: split each string into tokens, sort
the tokens, rejoin with single spaces, then take the indel similarity. -/
def tokenSortScore (a b : List Char) : ℚ :=
  indelScore (joinSp (sortTokens (splitWs a))) (joinSp (sortTokens (splitWs b)))

/-- `MATCH_THRESHOLD` of `src/app.py` line 24. -/
def MATCH_THRESHOLD : ℚ := 85

/-- Ordering used to model `sorted(matches, key=lambda x: x[1], reverse=True)`
of `src/app.py` line 46: descending by score. -/
def scoreGe (x y : List Char × ℚ) : Prop := y.2 ≤ x.2

instance : DecidableRel scoreGe := fun x y => inferInstanceAs (Decidable (y.2 ≤ x.2))

instance : IsTotal (List Char × ℚ) scoreGe :=
  ⟨fun x y => (le_total y.2 x.2).elim Or.inl Or.inr⟩

instance : IsTrans (List Char × ℚ) scoreGe :=
  ⟨fun _ _ _ h1 h2 => le_trans h2 h1⟩

/-- `fuzzy_match` of `src/app.py` lines 37–46: normalize the query, score
every candidate with `token_sort_ratio` against its own normalization, keep
`(candidate, score)` iff `score >= MATCH_THRESHOLD`, and return the kept
pairs sorted by score descending (Python's sort is stable). -/
def fuzzy_match (query : List Char) (candidates : List (List Char)) :
    List (List Char × ℚ) :=
  List.insertionSort scoreGe
    (candidates.filterMap (fun c =>
      if MATCH_THRESHOLD ≤ tokenSortScore (normalize query) (normalize c)
      then some (c, tokenSortScore (normalize query) (normalize c))
      else none))

/-- `FATF_HIGH_RISK` of `src/app.py` line 27. -/
def FATF_HIGH_RISK : List (List Char) :=
  ["iran".data, "north korea".data, "myanmar".data]

/-- `FATF_MONITORED` of `src/app.py` line 28. -/
def FATF_MONITORED : List (List Char) :=
  ["panama".data, "haiti".data, "south sudan".data, "syria".data]

/-- `compute_risk` of `src/app.py` lines 133–154.  `country` is optional
text; Python's `if country:` is false for `None` and for the empty string.
The contributions accumulate in source order and the score is capped by
`min(score, 100)`. -/
def compute_risk (ofac_hit un_hit : Bool) (country : Option (List Char)) :
    Int × List String :=
  let p1 : Int × List String :=
    if ofac_hit then (0 + 60, ["OFAC sanctions exposure"]) else (0, [])
  let p2 : Int × List String :=
    if un_hit then (p1.1 + 50, p1.2 ++ ["UN sanctions exposure"]) else p1
  let p3 : Int × List String :=
    match country with
    | none => p2
    | some s =>
        if s.isEmpty then p2
        else if s.map pyLower ∈ FATF_HIGH_RISK then
          (p2.1 + 20, p2.2 ++ ["High-risk FATF jurisdiction"])
        else if s.map pyLower ∈ FATF_MONITORED then
          (p2.1 + 10, p2.2 ++ ["FATF monitored jurisdiction"])
        else p2
  (min p3.1 100, p3.2)

/-! ## Facts about `lcs` -/

@[simp] theorem lcsF_nil_left (f : Nat) (bs : List Char) : lcsF f [] bs = 0 := by
  cases f <;> rfl

@[simp] theorem lcsF_nil_right (f : Nat) (as : List Char) : lcsF f as [] = 0 := by
  cases f <;> cases as <;> rfl

theorem lcsF_fuel (f : Nat) :
    ∀ (g : Nat) (as bs : List Char), as.length + bs.length ≤ f →
      as.length + bs.length ≤ g → lcsF f as bs = lcsF g as bs := by
  induction f using Nat.strong_induction_on with
  | _ f ih =>
    intro g as bs hf hg
    match as, bs with
    | [], _ => simp
    | _ :: _, [] => simp
    | a :: as1, b :: bs1 =>
      simp only [List.length_cons] at hf hg
      match f, g with
      | 0, _ => omega
      | _ + 1, 0 => omega
      | f1 + 1, g1 + 1 =>
        simp only [lcsF]
        by_cases hab : a = b
        · rw [if_pos hab, if_pos hab,
            ih f1 (by omega) g1 as1 bs1 (by omega) (by omega)]
        · rw [if_neg hab, if_neg hab,
            ih f1 (by omega) g1 (a :: as1) bs1 (by simp; omega) (by simp; omega),
            ih f1 (by omega) g1 as1 (b :: bs1) (by simp; omega) (by simp; omega)]

@[simp] theorem lcs_nil_left (bs : List Char) : lcs [] bs = 0 := lcsF_nil_left _ _

@[simp] theorem lcs_nil_right (as : List Char) : lcs as [] = 0 := lcsF_nil_right _ _

theorem lcs_cons_cons (a b : Char) (as bs : List Char) :
    lcs (a :: as) (b :: bs) =
      if a = b then lcs as bs + 1
      else max (lcs (a :: as) bs) (lcs as (b :: bs)) := by
  show lcsF ((a :: as).length + (b :: bs).length) _ _ = _
  rw [show (a :: as).length + (b :: bs).length = (as.length + bs.length + 1) + 1
    from by simp; omega]
  simp only [lcsF]
  by_cases hab : a = b
  · rw [if_pos hab, if_pos hab,
      lcsF_fuel (as.length + bs.length + 1) (as.length + bs.length) as bs
        (by omega) (by omega)]
    rfl
  · rw [if_neg hab, if_neg hab,
      lcsF_fuel (as.length + bs.length + 1) ((a :: as).length + bs.length)
        (a :: as) bs (by simp; omega) (le_refl _),
      lcsF_fuel (as.length + bs.length + 1) (as.length + (b :: bs).length)
        as (b :: bs) (by simp; omega) (le_refl _)]
    rfl

theorem lcs_comm (as : List Char) : ∀ bs, lcs as bs = lcs bs as := by
  induction as with
  | nil => intro bs; simp
  | cons a as ih =>
    intro bs
    induction bs with
    | nil => simp
    | cons b bs ih2 =>
      rw [lcs_cons_cons, lcs_cons_cons]
      by_cases hab : a = b
      · rw [if_pos hab, if_pos hab.symm, ih bs]
      · rw [if_neg hab, if_neg (fun h => hab h.symm), ih2, ih (b :: bs), max_comm]

/-! ## Facts about the similarity score -/

theorem indelScore_comm (a b : List Char) : indelScore a b = indelScore b a := by
  unfold indelScore
  rw [lcs_comm, Nat.add_comm b.length, add_comm (b.length : ℚ)]

theorem tokenSortScore_comm (a b : List Char) :
    tokenSortScore a b = tokenSortScore b a := by
  unfold tokenSortScore
  exact indelScore_comm _ _

/-! ## Facts about characters, `pyLower` and `isWs` -/

theorem toNat_ofNat_valid (n : Nat) (h : n < 55296) : (Char.ofNat n).toNat = n := by
  rw [Char.ofNat, dif_pos (Or.inl h)]
  rfl

theorem isWs_iff (c : Char) :
    isWs c = true ↔
      (c.toNat = 32 ∨ c.toNat = 9 ∨ c.toNat = 10 ∨ c.toNat = 13 ∨
        c.toNat = 11 ∨ c.toNat = 12) := by
  simp [isWs, or_assoc]

theorem toNat_pyLower_of_upper (c : Char) (h : 65 ≤ c.toNat ∧ c.toNat ≤ 90) :
    (pyLower c).toNat = c.toNat + 32 := by
  rw [pyLower, if_pos h, toNat_ofNat_valid _ (by omega)]

theorem pyLower_pyLower (c : Char) : pyLower (pyLower c) = pyLower c := by
  by_cases h : 65 ≤ c.toNat ∧ c.toNat ≤ 90
  · have h2 : (pyLower c).toNat = c.toNat + 32 := toNat_pyLower_of_upper c h
    rw [pyLower,
      if_neg (show ¬(65 ≤ (pyLower c).toNat ∧ (pyLower c).toNat ≤ 90) from by omega)]
  · have h1 : pyLower c = c := by rw [pyLower, if_neg h]
    simp only [h1]

theorem isWs_pyLower (c : Char) : isWs (pyLower c) = isWs c := by
  by_cases h : 65 ≤ c.toNat ∧ c.toNat ≤ 90
  · have h2 : (pyLower c).toNat = c.toNat + 32 := toNat_pyLower_of_upper c h
    have hl : isWs (pyLower c) = false := by
      rw [← Bool.not_eq_true, isWs_iff, h2]
      omega
    have hr : isWs c = false := by
      rw [← Bool.not_eq_true, isWs_iff]
      omega
    rw [hl, hr]
  · rw [pyLower, if_neg h]

theorem pyLower_space : pyLower ' ' = ' ' := by decide

/-! ## Facts about `splitWs` and `joinSp` -/

theorem splitWsAux_words (t : List Char) :
    ∀ acc : List Char, (∀ c ∈ acc, isWs c = false) →
      ∀ w ∈ splitWsAux t acc, w ≠ [] ∧ ∀ c ∈ w, isWs c = false := by
  induction t with
  | nil =>
    intro acc hacc w hw
    rw [splitWsAux] at hw
    by_cases he : acc.isEmpty
    · rw [if_pos he] at hw
      simp at hw
    · rw [if_neg he] at hw
      simp only [List.mem_singleton] at hw
      subst hw
      refine ⟨by simpa [List.isEmpty_iff] using he, ?_⟩
      intro c hc
      exact hacc c (List.mem_reverse.mp hc)
  | cons d t ih =>
    intro acc hacc w hw
    rw [splitWsAux] at hw
    by_cases hd : isWs d
    · rw [if_pos hd] at hw
      by_cases he : acc.isEmpty
      · rw [if_pos he] at hw
        exact ih [] (by simp) w hw
      · rw [if_neg he] at hw
        rcases List.mem_cons.mp hw with h1 | h1
        · subst h1
          refine ⟨by simpa [List.isEmpty_iff] using he, ?_⟩
          intro c hc
          exact hacc c (List.mem_reverse.mp hc)
        · exact ih [] (by simp) w h1
    · rw [if_neg hd] at hw
      refine ih (d :: acc) ?_ w hw
      intro c hc
      rcases List.mem_cons.mp hc with h1 | h1
      · subst h1
        simpa using hd
      · exact hacc c h1

theorem splitWs_words (t : List Char) :
    ∀ w ∈ splitWs t, w ≠ [] ∧ ∀ c ∈ w, isWs c = false :=
  splitWsAux_words t [] (by simp)

theorem splitWsAux_chars (t : List Char) :
    ∀ acc : List Char, ∀ w ∈ splitWsAux t acc, ∀ c ∈ w, c ∈ t ∨ c ∈ acc := by
  induction t with
  | nil =>
    intro acc w hw c hc
    rw [splitWsAux] at hw
    by_cases he : acc.isEmpty
    · rw [if_pos he] at hw
      simp at hw
    · rw [if_neg he] at hw
      simp only [List.mem_singleton] at hw
      subst hw
      exact Or.inr (List.mem_reverse.mp hc)
  | cons d t ih =>
    intro acc w hw c hc
    rw [splitWsAux] at hw
    by_cases hd : isWs d
    · rw [if_pos hd] at hw
      by_cases he : acc.isEmpty
      · rw [if_pos he] at hw
        rcases ih [] w hw c hc with h1 | h1
        · exact Or.inl (List.mem_cons_of_mem _ h1)
        · simp at h1
      · rw [if_neg he] at hw
        rcases List.mem_cons.mp hw with h1 | h1
        · subst h1
          exact Or.inr (List.mem_reverse.mp hc)
        · rcases ih [] w h1 c hc with h2 | h2
          · exact Or.inl (List.mem_cons_of_mem _ h2)
          · simp at h2
    · rw [if_neg hd] at hw
      rcases ih (d :: acc) w hw c hc with h1 | h1
      · exact Or.inl (List.mem_cons_of_mem _ h1)
      · rcases List.mem_cons.mp h1 with h2 | h2
        · exact Or.inl (h2 ▸ List.mem_cons_self _ _)
        · exact Or.inr h2

theorem splitWs_chars (t : List Char) : ∀ w ∈ splitWs t, ∀ c ∈ w, c ∈ t := by
  intro w hw c hc
  rcases splitWsAux_chars t [] w hw c hc with h | h
  · exact h
  · simp at h

theorem splitWsAux_map (f : Char → Char) (hf : ∀ c, isWs (f c) = isWs c)
    (t : List Char) :
    ∀ acc : List Char,
      splitWsAux (t.map f) (acc.map f) = (splitWsAux t acc).map (List.map f) := by
  induction t with
  | nil =>
    intro acc
    simp only [List.map_nil, splitWsAux]
    by_cases he : acc.isEmpty
    · rw [if_pos (show (acc.map f).isEmpty = true from by simpa using he),
        if_pos he, List.map_nil]
    · rw [if_neg (show ¬(acc.map f).isEmpty = true from by simpa using he),
        if_neg he]
      simp [List.map_reverse]
  | cons d t ih =>
    intro acc
    simp only [List.map_cons, splitWsAux, hf d]
    by_cases hd : isWs d
    · rw [if_pos hd, if_pos hd]
      by_cases he : acc.isEmpty
      · rw [if_pos (show (acc.map f).isEmpty = true from by simpa using he),
          if_pos he]
        exact ih []
      · rw [if_neg (show ¬(acc.map f).isEmpty = true from by simpa using he),
          if_neg he, List.map_cons, ← List.map_reverse]
        have h0 := ih []
        simp only [List.map_nil] at h0
        rw [h0]
    · rw [if_neg hd, if_neg hd]
      exact ih (d :: acc)

theorem joinSp_cons_cons (w w2 : List Char) (ws : List (List Char)) :
    joinSp (w :: w2 :: ws) = w ++ ' ' :: joinSp (w2 :: ws) := rfl

theorem joinSp_ne_nil (w : List Char) (ws : List (List Char)) (hw : w ≠ []) :
    joinSp (w :: ws) ≠ [] := by
  cases ws with
  | nil => exact hw
  | cons w2 ws2 =>
    rw [joinSp_cons_cons]
    simp

theorem splitWsAux_word (w : List Char) (hw : ∀ c ∈ w, isWs c = false) :
    ∀ (t acc : List Char), splitWsAux (w ++ t) acc = splitWsAux t (w.reverse ++ acc) := by
  induction w with
  | nil => intro t acc; simp
  | cons c w ih =>
    intro t acc
    have hc : isWs c = false := hw c (List.mem_cons_self _ _)
    rw [List.cons_append, splitWsAux, if_neg (by simp [hc])]
    rw [ih (fun d hd => hw d (List.mem_cons_of_mem _ hd)) t (c :: acc)]
    congr 1
    simp

theorem splitWs_joinSp (ws : List (List Char))
    (h : ∀ w ∈ ws, w ≠ [] ∧ ∀ c ∈ w, isWs c = false) :
    splitWs (joinSp ws) = ws := by
  induction ws with
  | nil => rfl
  | cons w ws ih =>
    obtain ⟨hne, hwf⟩ := h w (List.mem_cons_self _ _)
    cases ws with
    | nil =>
      show splitWsAux (joinSp [w]) [] = [w]
      have h1 := splitWsAux_word w hwf [] []
      rw [List.append_nil, List.append_nil] at h1
      rw [show joinSp [w] = w from rfl, h1, splitWsAux,
        if_neg (by simpa [List.isEmpty_iff] using hne), List.reverse_reverse]
    | cons w2 ws2 =>
      show splitWsAux (joinSp (w :: w2 :: ws2)) [] = _
      have h1 := splitWsAux_word w hwf (' ' :: joinSp (w2 :: ws2)) []
      rw [List.append_nil] at h1
      rw [joinSp_cons_cons, h1, splitWsAux, if_pos (by simp [isWs]),
        if_neg (by simpa [List.isEmpty_iff] using hne), List.reverse_reverse]
      exact congrArg (w :: ·) (ih (fun u hu => h u (List.mem_cons_of_mem _ hu)))

theorem map_joinSp (f : Char → Char) (hf : f ' ' = ' ') (ws : List (List Char)) :
    (joinSp ws).map f = joinSp (ws.map (List.map f)) := by
  induction ws with
  | nil => rfl
  | cons w ws ih =>
    cases ws with
    | nil => rfl
    | cons w2 ws2 =>
      rw [joinSp_cons_cons, List.map_append, List.map_cons, hf, ih,
        List.map_cons, List.map_cons, List.map_cons, joinSp_cons_cons]

theorem mem_joinSp (ws : List (List Char)) (c : Char) (hc : c ∈ joinSp ws) :
    (∃ w ∈ ws, c ∈ w) ∨ c = ' ' := by
  induction ws with
  | nil => simp [joinSp] at hc
  | cons w ws ih =>
    cases ws with
    | nil => exact Or.inl ⟨w, by simp, by simpa [joinSp] using hc⟩
    | cons w2 ws2 =>
      rw [joinSp_cons_cons] at hc
      rcases List.mem_append.mp hc with h1 | h1
      · exact Or.inl ⟨w, by simp, h1⟩
      · rcases List.mem_cons.mp h1 with h2 | h2
        · exact Or.inr h2
        · rcases ih h2 with ⟨w3, hw3, hcw⟩ | h3
          · exact Or.inl ⟨w3, List.mem_cons_of_mem _ hw3, hcw⟩
          · exact Or.inr h3

theorem head_joinSp (ws : List (List Char))
    (h : ∀ w ∈ ws, w ≠ [] ∧ ∀ c ∈ w, isWs c = false) :
    ∀ c, (joinSp ws).head? = some c → isWs c = false := by
  intro c hc
  cases ws with
  | nil => simp [joinSp] at hc
  | cons w ws =>
    obtain ⟨hne, hwf⟩ := h w (List.mem_cons_self _ _)
    cases w with
    | nil => exact absurd rfl hne
    | cons a w2 =>
      have ha : a ∈ a :: w2 := List.mem_cons_self _ _
      cases ws with
      | nil =>
        rw [show joinSp [a :: w2] = a :: w2 from rfl] at hc
        simp only [List.head?_cons, Option.some.injEq] at hc
        exact hc ▸ hwf a ha
      | cons w3 ws3 =>
        rw [joinSp_cons_cons, List.cons_append] at hc
        simp only [List.head?_cons, Option.some.injEq] at hc
        exact hc ▸ hwf a ha

theorem getLast_joinSp (ws : List (List Char)) :
    (∀ w ∈ ws, w ≠ []) → ∀ c, (joinSp ws).getLast? = some c → ∃ w ∈ ws, c ∈ w := by
  induction ws with
  | nil => intro _ c hc; simp [joinSp] at hc
  | cons w ws ih =>
    intro h c hc
    cases ws with
    | nil =>
      rw [show joinSp [w] = w from rfl] at hc
      exact ⟨w, by simp, List.mem_of_getLast?_eq_some hc⟩
    | cons w2 ws2 =>
      have hnn : joinSp (w2 :: ws2) ≠ [] :=
        joinSp_ne_nil w2 ws2 (h w2 (List.mem_cons_of_mem _ (List.mem_cons_self _ _)))
      rcases List.exists_cons_of_ne_nil hnn with ⟨d, t, h2⟩
      rw [joinSp_cons_cons, List.getLast?_append, h2, List.getLast?_cons_cons] at hc
      rcases h3 : (d :: t).getLast? with _ | x
      · rw [List.getLast?_eq_none_iff] at h3
        exact absurd h3 (by simp)
      · rw [h3] at hc
        obtain rfl : x = c := by simpa using hc
        have h4 : (joinSp (w2 :: ws2)).getLast? = some x := by rw [h2]; exact h3
        rcases ih (fun u hu => h u (List.mem_cons_of_mem _ hu)) x h4 with ⟨w3, hw3, hcw⟩
        exact ⟨w3, List.mem_cons_of_mem _ hw3, hcw⟩

theorem chain_of_all_not_ws (w : List Char) (hw : ∀ c ∈ w, isWs c = false) :
    w.Chain' (fun a b => isWs a = true → isWs b = false) := by
  induction w with
  | nil => simp
  | cons a w ih =>
    cases w with
    | nil => simp
    | cons b w2 =>
      rw [List.chain'_cons]
      refine ⟨fun _ => hw b (List.mem_cons_of_mem _ (List.mem_cons_self _ _)), ?_⟩
      exact ih fun c hc => hw c (List.mem_cons_of_mem _ hc)

theorem chain_joinSp (ws : List (List Char))
    (h : ∀ w ∈ ws, w ≠ [] ∧ ∀ c ∈ w, isWs c = false) :
    (joinSp ws).Chain' (fun a b => isWs a = true → isWs b = false) := by
  induction ws with
  | nil => simp [joinSp]
  | cons w ws ih =>
    obtain ⟨hne, hwf⟩ := h w (List.mem_cons_self _ _)
    cases ws with
    | nil => exact chain_of_all_not_ws w hwf
    | cons w2 ws2 =>
      rw [joinSp_cons_cons, List.chain'_append]
      refine ⟨chain_of_all_not_ws w hwf, ?_, ?_⟩
      · rw [List.chain'_cons']
        refine ⟨?_, ih fun u hu => h u (List.mem_cons_of_mem _ hu)⟩
        intro y hy _
        exact head_joinSp (w2 :: ws2) (fun u hu => h u (List.mem_cons_of_mem _ hu)) y hy
      · intro x hx y _ hxw
        have hxmem : x ∈ w := List.mem_of_getLast?_eq_some hx
        exact absurd hxw (by rw [hwf x hxmem]; simp)

theorem splitWsAux_all_ws (t : List Char) (h : ∀ c ∈ t, isWs c = true) :
    splitWsAux t [] = [] := by
  induction t with
  | nil => rfl
  | cons c t ih =>
    rw [splitWsAux, if_pos (h c (List.mem_cons_self _ _))]
    simp only [List.isEmpty_nil, if_pos]
    exact ih fun d hd => h d (List.mem_cons_of_mem _ hd)

theorem normalize_eq (s : List Char) :
    normalize s = joinSp ((splitWs s).map (List.map pyLower)) := by
  unfold normalize splitWs
  have h := splitWsAux_map pyLower isWs_pyLower s []
  simp only [List.map_nil] at h
  rw [h]

/-! ## Claims C4 and C10 -/

/-- C4: `normalize` lower-cases all characters and collapses every run of
whitespace to a single space: the output is exactly the lower-cased maximal
whitespace-free words of the input joined by single spaces; an empty or
whitespace-only input normalizes to the empty string; any whitespace in the
output is the single space `' '`, two adjacent output characters are never
both whitespace, and the output neither starts nor ends with whitespace. -/
theorem C4_normalize (s : List Char) :
    normalize s = joinSp ((splitWs s).map (List.map pyLower)) ∧
    ((∀ c ∈ s, isWs c = true) → normalize s = []) ∧
    (∀ c ∈ normalize s, isWs c = true → c = ' ') ∧
    (normalize s).Chain' (fun a b => isWs a = true → isWs b = false) ∧
    (∀ c, (normalize s).head? = some c → isWs c = false) ∧
    (∀ c, (normalize s).getLast? = some c → isWs c = false) := by
  have hwords := splitWs_words (s.map pyLower)
  refine ⟨normalize_eq s, ?_, ?_, ?_, ?_, ?_⟩
  · intro hws
    have : splitWs (s.map pyLower) = [] := by
      apply splitWsAux_all_ws
      intro c hc
      rcases List.mem_map.mp hc with ⟨d, hd, rfl⟩
      rw [isWs_pyLower]
      exact hws d hd
    show joinSp (splitWs (s.map pyLower)) = []
    rw [this]
    rfl
  · intro c hc hcws
    rcases mem_joinSp _ c hc with ⟨w, hw, hcw⟩ | h1
    · exact absurd hcws (by rw [(hwords w hw).2 c hcw]; simp)
    · exact h1
  · exact chain_joinSp _ hwords
  · exact head_joinSp _ hwords
  · intro c hc
    rcases getLast_joinSp _ (fun w hw => (hwords w hw).1) c hc with ⟨w, hw, hcw⟩
    exact (hwords w hw).2 c hcw

/-- C4 witness: a concrete normalization, and a whitespace-only input
normalizing to the empty string through the theorem. -/
theorem C4_normalize_witness :
    normalize (" \t A  b \n".data) = "a b".data ∧ normalize ("  \t ".data) = [] :=
  ⟨by decide, (C4_normalize ("  \t ".data)).2.1 (by decide)⟩

/-- C10: `normalize` is idempotent, so scoring text that is already
normalized (as `fuzzy_match` does with the normalized query) equals scoring
the raw text normalized once. -/
theorem C10_idempotent (s : List Char) :
    normalize (normalize s) = normalize s ∧
    ∀ t, tokenSortScore (normalize (normalize s)) (normalize t) =
      tokenSortScore (normalize s) (normalize t) := by
  have hwords := splitWs_words (s.map pyLower)
  have hchars : ∀ w ∈ splitWs (s.map pyLower), ∀ c ∈ w, pyLower c = c := by
    intro w hw c hc
    have hmem : c ∈ s.map pyLower := splitWs_chars _ w hw c hc
    rcases List.mem_map.mp hmem with ⟨d, _, rfl⟩
    exact pyLower_pyLower d
  have hfix : ∀ w ∈ splitWs (s.map pyLower), List.map pyLower w = w := by
    intro w hw
    exact (List.map_congr_left fun c hc => hchars w hw c hc).trans (List.map_id w)
  have hmain : normalize (normalize s) = normalize s := by
    have hmap : (normalize s).map pyLower = normalize s := by
      show (joinSp (splitWs (s.map pyLower))).map pyLower = _
      rw [map_joinSp pyLower pyLower_space]
      show joinSp ((splitWs (s.map pyLower)).map (List.map pyLower)) = _
      rw [List.map_congr_left hfix, List.map_id']
      rfl
    show joinSp (splitWs ((normalize s).map pyLower)) = normalize s
    rw [hmap]
    show joinSp (splitWs (joinSp (splitWs (s.map pyLower)))) = _
    rw [splitWs_joinSp _ hwords]
    rfl
  exact ⟨hmain, fun t => by rw [hmain]⟩

/-! ## Facts about `fuzzy_match` -/

theorem mem_fuzzy_match (q c : List Char) (cs : List (List Char)) (s : ℚ) :
    (c, s) ∈ fuzzy_match q cs ↔
      c ∈ cs ∧ s = tokenSortScore (normalize q) (normalize c) ∧
        MATCH_THRESHOLD ≤ s := by
  unfold fuzzy_match
  rw [(List.perm_insertionSort scoreGe _).mem_iff, List.mem_filterMap]
  constructor
  · rintro ⟨a, ha, hfa⟩
    by_cases hT : MATCH_THRESHOLD ≤ tokenSortScore (normalize q) (normalize a)
    · rw [if_pos hT] at hfa
      simp only [Option.some.injEq, Prod.mk.injEq] at hfa
      obtain ⟨rfl, rfl⟩ := hfa
      exact ⟨ha, rfl, hT⟩
    · rw [if_neg hT] at hfa
      exact absurd hfa (by simp)
  · rintro ⟨hc, rfl, hT⟩
    exact ⟨c, hc, by rw [if_pos hT]⟩

/-- Evaluation helper: the token-sort score of two single-token strings
(strings that each equal their own sorted-token join). -/
theorem tokenSortScore_eval (a b : List Char) (k la lb : Nat)
    (hta : joinSp (sortTokens (splitWs a)) = a)
    (htb : joinSp (sortTokens (splitWs b)) = b)
    (hl : lcs a b = k) (hla : a.length = la) (hlb : b.length = lb)
    (h0 : la + lb ≠ 0) :
    tokenSortScore a b = 200 * (k : ℚ) / ((la : ℚ) + (lb : ℚ)) := by
  unfold tokenSortScore
  rw [hta, htb]
  unfold indelScore
  rw [if_neg (by rw [hla, hlb]; exact h0), hl, hla, hlb]

/-! ## Claims C1, C2, C3, C5, C6 -/

/-- C2: the threshold is inclusive.  For every query and candidate list, a
candidate in the list whose token-sort similarity against the normalized
query is exactly 85 appears (with score 85) in the returned match set, and
a candidate scoring 84 does not appear with any score. -/
theorem C2_threshold (q c : List Char) (cs : List (List Char)) (hc : c ∈ cs) :
    (tokenSortScore (normalize q) (normalize c) = 85 →
      (c, (85 : ℚ)) ∈ fuzzy_match q cs) ∧
    (tokenSortScore (normalize q) (normalize c) = 84 →
      ∀ s : ℚ, (c, s) ∉ fuzzy_match q cs) := by
  constructor
  · intro h85
    rw [mem_fuzzy_match]
    exact ⟨hc, h85.symm, by norm_num [MATCH_THRESHOLD]⟩
  · intro h84 s hmem
    rw [mem_fuzzy_match] at hmem
    obtain ⟨_, rfl, hT⟩ := hmem
    rw [h84] at hT
    norm_num [MATCH_THRESHOLD] at hT

/-- C2 witness: against the query `aaaaaaaaaaaaaaaaawxyz` (17 `a`s then
`wxyz`), the candidate `aaaaaaaaaaaaaaaaaqq` scores exactly
`200·17/40 = 85` and is retained, while `aaaaaaaaaaaaaaaaawxyzqqqqqqqq`
scores exactly `200·21/50 = 84` and is not retained. -/
theorem C2_threshold_witness :
    ("aaaaaaaaaaaaaaaaaqq".data, (85 : ℚ)) ∈
      fuzzy_match ("aaaaaaaaaaaaaaaaawxyz".data)
        ["aaaaaaaaaaaaaaaaaqq".data, "aaaaaaaaaaaaaaaaawxyzqqqqqqqq".data] ∧
    ("aaaaaaaaaaaaaaaaawxyzqqqqqqqq".data, (84 : ℚ)) ∉
      fuzzy_match ("aaaaaaaaaaaaaaaaawxyz".data)
        ["aaaaaaaaaaaaaaaaaqq".data, "aaaaaaaaaaaaaaaaawxyzqqqqqqqq".data] := by
  have e1 : normalize ("aaaaaaaaaaaaaaaaawxyz".data) = "aaaaaaaaaaaaaaaaawxyz".data := by
    decide
  have e2 : normalize ("aaaaaaaaaaaaaaaaaqq".data) = "aaaaaaaaaaaaaaaaaqq".data := by
    decide
  have e3 : normalize ("aaaaaaaaaaaaaaaaawxyzqqqqqqqq".data) =
      "aaaaaaaaaaaaaaaaawxyzqqqqqqqq".data := by decide
  have h85 : tokenSortScore (normalize ("aaaaaaaaaaaaaaaaawxyz".data))
      (normalize ("aaaaaaaaaaaaaaaaaqq".data)) = 85 := by
    rw [e1, e2, tokenSortScore_eval _ _ 17 21 19 (by decide) (by decide) (by decide)
      (by decide) (by decide) (by norm_num)]
    norm_num
  have h84 : tokenSortScore (normalize ("aaaaaaaaaaaaaaaaawxyz".data))
      (normalize ("aaaaaaaaaaaaaaaaawxyzqqqqqqqq".data)) = 84 := by
    rw [e1, e3, tokenSortScore_eval _ _ 21 21 29 (by decide) (by decide) (by decide)
      (by decide) (by decide) (by norm_num)]
    norm_num
  exact ⟨(C2_threshold _ _ _ (by decide)).1 h85,
    (C2_threshold _ _ _ (by decide)).2 h84 84⟩

/-- C1 counterexample: `fuzzy_match` does not de-duplicate.  With the query
`Ana Lee` and the candidate list `["Ana Lee", "Ana Lee"]`, the returned
match set holds the candidate `Ana Lee` twice (both scored 100), not once. -/
theorem C1_counterexample :
    fuzzy_match ("Ana Lee".data) ["Ana Lee".data, "Ana Lee".data] =
      [("Ana Lee".data, 100), ("Ana Lee".data, 100)] ∧
    (fuzzy_match ("Ana Lee".data) ["Ana Lee".data, "Ana Lee".data]).countP
      (fun m => decide (m.1 = "Ana Lee".data)) = 2 := by
  have e1 : normalize ("Ana Lee".data) = "ana lee".data := by decide
  have h100 : tokenSortScore (normalize ("Ana Lee".data))
      (normalize ("Ana Lee".data)) = 100 := by
    rw [e1, tokenSortScore_eval _ _ 7 7 7 (by decide) (by decide) (by decide)
      (by decide) (by decide) (by norm_num)]
    norm_num
  have hfm : fuzzy_match ("Ana Lee".data) ["Ana Lee".data, "Ana Lee".data] =
      [("Ana Lee".data, 100), ("Ana Lee".data, 100)] := by
    unfold fuzzy_match
    have hsome : ∀ l : List (List Char),
        List.filterMap (fun c =>
          if MATCH_THRESHOLD ≤ tokenSortScore (normalize ("Ana Lee".data)) (normalize c)
          then some (c, tokenSortScore (normalize ("Ana Lee".data)) (normalize c))
          else none) ("Ana Lee".data :: l) =
          ("Ana Lee".data, 100) ::
            List.filterMap (fun c =>
              if MATCH_THRESHOLD ≤ tokenSortScore (normalize ("Ana Lee".data)) (normalize c)
              then some (c, tokenSortScore (normalize ("Ana Lee".data)) (normalize c))
              else none) l := by
      intro l
      rw [List.filterMap_cons_some]
      show (if MATCH_THRESHOLD ≤ tokenSortScore (normalize ("Ana Lee".data))
          (normalize ("Ana Lee".data))
        then some ("Ana Lee".data, tokenSortScore (normalize ("Ana Lee".data))
          (normalize ("Ana Lee".data)))
        else none) = some ("Ana Lee".data, 100)
      rw [h100, if_pos (by norm_num [MATCH_THRESHOLD])]
    rw [hsome, hsome, List.filterMap_nil]
    show List.insertionSort scoreGe [("Ana Lee".data, 100), ("Ana Lee".data, 100)] = _
    rw [show List.insertionSort scoreGe
        [(("Ana Lee".data : List Char), (100 : ℚ)), ("Ana Lee".data, 100)] =
        List.orderedInsert scoreGe ("Ana Lee".data, 100)
          (List.orderedInsert scoreGe ("Ana Lee".data, 100) []) from rfl]
    rw [show List.orderedInsert scoreGe (("Ana Lee".data : List Char), (100 : ℚ)) [] =
        [("Ana Lee".data, 100)] from rfl]
    rw [List.orderedInsert, if_pos (by show (100 : ℚ) ≤ 100; norm_num)]
  exact ⟨hfm, by rw [hfm]; decide⟩

/-- C1 as amended: `fuzzy_match` keeps one match per input occurrence, so a
candidate value `v` appears in the match set exactly as many times as it
appears in the candidate list when its score meets the threshold, and zero
times otherwise (every occurrence of the same string gets the same score). -/
theorem C1_amended (q v : List Char) (cs : List (List Char)) :
    (fuzzy_match q cs).countP (fun m => decide (m.1 = v)) =
      if MATCH_THRESHOLD ≤ tokenSortScore (normalize q) (normalize v)
      then cs.countP (fun c => decide (c = v)) else 0 := by
  unfold fuzzy_match
  rw [(List.perm_insertionSort scoreGe _).countP_eq]
  induction cs with
  | nil => simp
  | cons c cs ih =>
    by_cases hT : MATCH_THRESHOLD ≤ tokenSortScore (normalize q) (normalize c)
    · have hstep : List.filterMap (fun c2 =>
          if MATCH_THRESHOLD ≤ tokenSortScore (normalize q) (normalize c2)
          then some (c2, tokenSortScore (normalize q) (normalize c2)) else none)
          (c :: cs) =
          (c, tokenSortScore (normalize q) (normalize c)) ::
            List.filterMap (fun c2 =>
              if MATCH_THRESHOLD ≤ tokenSortScore (normalize q) (normalize c2)
              then some (c2, tokenSortScore (normalize q) (normalize c2)) else none)
              cs :=
        List.filterMap_cons_some (if_pos hT)
      rw [hstep, List.countP_cons, ih, List.countP_cons]
      by_cases hv : c = v
      · subst hv
        simp [hT]
      · simp only [decide_eq_true_eq, hv, if_false]
        by_cases hTv : MATCH_THRESHOLD ≤ tokenSortScore (normalize q) (normalize v) <;>
          simp [hTv, hv]
    · have hstep : List.filterMap (fun c2 =>
          if MATCH_THRESHOLD ≤ tokenSortScore (normalize q) (normalize c2)
          then some (c2, tokenSortScore (normalize q) (normalize c2)) else none)
          (c :: cs) =
          List.filterMap (fun c2 =>
            if MATCH_THRESHOLD ≤ tokenSortScore (normalize q) (normalize c2)
            then some (c2, tokenSortScore (normalize q) (normalize c2)) else none)
            cs :=
        List.filterMap_cons_none (if_neg hT)
      rw [hstep, ih, List.countP_cons]
      by_cases hv : c = v
      · subst hv
        rw [if_neg hT, if_neg hT]
      · simp [hv]

theorem filter_orderedInsert (s : ℚ) (x : List Char × ℚ) (l : List (List Char × ℚ)) :
    (List.orderedInsert scoreGe x l).filter (fun m => decide (m.2 = s)) =
      if x.2 = s then x :: l.filter (fun m => decide (m.2 = s))
      else l.filter (fun m => decide (m.2 = s)) := by
  induction l with
  | nil =>
    by_cases hx : x.2 = s <;> simp [List.orderedInsert, List.filter, hx]
  | cons b l ih =>
    rw [List.orderedInsert]
    by_cases hr : scoreGe x b
    · rw [if_pos hr]
      by_cases hx : x.2 = s <;> simp [List.filter_cons, hx]
    · rw [if_neg hr]
      rw [List.filter_cons]
      by_cases hb : b.2 = s
      · have hxs : ¬ x.2 = s := fun h => hr (le_of_eq (hb.trans h.symm))
        simp [List.filter_cons, hb, hxs, ih]
      · simp [List.filter_cons, hb, ih]

theorem filter_insertionSort (s : ℚ) (l : List (List Char × ℚ)) :
    (List.insertionSort scoreGe l).filter (fun m => decide (m.2 = s)) =
      l.filter (fun m => decide (m.2 = s)) := by
  induction l with
  | nil => rfl
  | cons x l ih =>
    rw [show List.insertionSort scoreGe (x :: l) =
        List.orderedInsert scoreGe x (List.insertionSort scoreGe l) from rfl,
      filter_orderedInsert, List.filter_cons]
    by_cases hx : x.2 = s <;> simp [hx, ih]

/-- C3: the match set is sorted by score descending (`scoreGe m1 m2` says
the score of `m2` is at most the score of `m1`), and the sort is stable:
for every score value `s`, the matches scoring `s` appear in exactly the
order in which the threshold filter over the input candidate list produced
them (that filter traverses candidates in input-list order). -/
theorem C3_sorted_stable (q : List Char) (cs : List (List Char)) :
    List.Sorted scoreGe (fuzzy_match q cs) ∧
    ∀ s : ℚ, (fuzzy_match q cs).filter (fun m => decide (m.2 = s)) =
      (cs.filterMap (fun c =>
        if MATCH_THRESHOLD ≤ tokenSortScore (normalize q) (normalize c)
        then some (c, tokenSortScore (normalize q) (normalize c))
        else none)).filter (fun m => decide (m.2 = s)) :=
  ⟨List.sorted_insertionSort scoreGe _, fun s => filter_insertionSort s _⟩

/-- C5: the similarity used per candidate — `fuzz.token_sort_ratio` over
normalized strings — is symmetric in its two arguments. -/
theorem C5_symmetry (a b : List Char) :
    tokenSortScore (normalize a) (normalize b) =
      tokenSortScore (normalize b) (normalize a) :=
  tokenSortScore_comm _ _

/-- C6: word-order tolerance.  `fuzzy_match "Smith John" ["John Smith"]`
returns `John Smith` with score 100, which meets the threshold 85. -/
theorem C6_word_order :
    fuzzy_match ("Smith John".data) ["John Smith".data] =
      [("John Smith".data, 100)] ∧ MATCH_THRESHOLD ≤ (100 : ℚ) := by
  have e1 : normalize ("Smith John".data) = "smith john".data := by decide
  have e2 : normalize ("John Smith".data) = "john smith".data := by decide
  have h100 : tokenSortScore (normalize ("Smith John".data))
      (normalize ("John Smith".data)) = 100 := by
    rw [e1, e2]
    unfold tokenSortScore
    rw [show joinSp (sortTokens (splitWs ("smith john".data))) = "john smith".data
        from by decide,
      show joinSp (sortTokens (splitWs ("john smith".data))) = "john smith".data
        from by decide]
    unfold indelScore
    rw [if_neg (by decide),
      show lcs ("john smith".data) ("john smith".data) = 10 from by decide,
      show ("john smith".data).length = 10 from by decide]
    norm_num
  constructor
  · unfold fuzzy_match
    have hfl : List.filterMap (fun c =>
        if MATCH_THRESHOLD ≤ tokenSortScore (normalize ("Smith John".data)) (normalize c)
        then some (c, tokenSortScore (normalize ("Smith John".data)) (normalize c))
        else none) ["John Smith".data] =
        ("John Smith".data, (100 : ℚ)) ::
          List.filterMap (fun c =>
            if MATCH_THRESHOLD ≤ tokenSortScore (normalize ("Smith John".data)) (normalize c)
            then some (c, tokenSortScore (normalize ("Smith John".data)) (normalize c))
            else none) [] :=
      List.filterMap_cons_some (by rw [h100, if_pos (by norm_num [MATCH_THRESHOLD])])
    rw [hfl, List.filterMap_nil]
    rfl
  · norm_num [MATCH_THRESHOLD]

/-! ## Claims C7, C8, C9 -/

/-- C7: for every combination of hit flags and every country value (absent,
empty, recognized or unrecognized), the score of `compute_risk` lies in
`[0, 100]`. -/
theorem C7_score_range (o u : Bool) (country : Option (List Char)) :
    0 ≤ (compute_risk o u country).1 ∧ (compute_risk o u country).1 ≤ 100 := by
  rcases country with _ | s <;> cases o <;> cases u <;>
    simp only [compute_risk] <;> split_ifs <;> constructor <;> simp

/-- C8: contributions are evaluated in the fixed order OFAC, UN,
jurisdiction, which defines the order of the factors list; in particular
`compute_risk true true (some "iran")` yields exactly the three factors in
that order with score `min (60+50+20) 100 = 100`. -/
theorem C8_factor_order :
    compute_risk true true (some ("iran".data)) =
      (100, ["OFAC sanctions exposure", "UN sanctions exposure",
        "High-risk FATF jurisdiction"]) ∧
    ∀ (o u : Bool) (country : Option (List Char)),
      (compute_risk o u country).2 =
        (if o then ["OFAC sanctions exposure"] else []) ++
        (if u then ["UN sanctions exposure"] else []) ++
        (compute_risk false false country).2 := by
  constructor
  · simp +decide [compute_risk, FATF_HIGH_RISK]
  · intro o u country
    rcases country with _ | s <;> cases o <;> cases u <;>
      simp only [compute_risk] <;> split_ifs <;> simp_all

/-- C9: `compute_risk` is total, and an absent country, an empty country
string, or a country that (lower-cased) is in neither jurisdiction set
contributes nothing: the result equals that of the same call with no
country. -/
theorem C9_unrecognized_country (o u : Bool) (country : Option (List Char))
    (h : ∀ s, country = some s →
      s = [] ∨ (s.map pyLower ∉ FATF_HIGH_RISK ∧ s.map pyLower ∉ FATF_MONITORED)) :
    compute_risk o u country = compute_risk o u none := by
  rcases country with _ | s
  · rfl
  · rcases h s rfl with hs | ⟨h1, h2⟩
    · subst hs
      simp [compute_risk]
    · by_cases he : s.isEmpty <;> simp [compute_risk, he, h1, h2]

/-- C9 witness: the unrecognized country `france` changes nothing. -/
theorem C9_unrecognized_country_witness :
    compute_risk true false (some ("france".data)) = compute_risk true false none :=
  C9_unrecognized_country true false (some ("france".data)) (by
    intro s hs
    cases hs
    exact Or.inr (by constructor <;> decide))

end AFCS
